import Mathlib

/-!
Verification of the execution-event capture and reconstruction engine of the
"blind" time-travel debugger.

The definitions below are a shallow embedding of the TypeScript source:

* `TraceEvent` — `webview/src/types/index.ts` (`TraceEvent` interface);
* JavaScript `Map` / `Set` objects are modelled as association lists with
  first-occurrence lookup and in-place update (`mapGet`, `mapSet`), which is
  observationally faithful for the operations the source uses
  (`get`, `set`, `has`, `size`, insertion-order iteration);
* `callStack` — `InspectorEnhanced.callStack` (FileBlock.tsx, lines 107-143);
  the `CallStack.callStack` variant differs only in that it accepts
  `'function_call'` events but not `'method_call'` events;
* `shouldShowEvent` — `useTreeFilters.ts`, lines 74-125;
* `nodeMap` / `callTreeRoots` / `callTreeEdges` — `FunctionCallTree.callTree`
  (first and second pass);
* `lineExecutionCount` — `CodeContext.lineExecutionCounts`;
* `StoreState` and its actions — the playback store (`useStore.ts`,
  `create<AppState>` version with `currentEventIndex`);
* `ServerState` / `handleTraceEvent` / `processMessages` — `TraceServer.ts`.

JavaScript numbers holding indices are modelled as `Int` where the source can
hold `-1` (the cursor) and as `Nat` where the data model fixes them
non-negative (`stack_depth`, `line_number`, `event_id`).  Timestamps (floats)
are modelled as `Nat`; no verified property depends on their arithmetic.
-/

/-- One trace event, after the fields the reconstruction code reads.
Payload fields (`entity_data`, `variables`, `arguments`, timings) are not
modelled: no claim depends on their contents. -/
structure TraceEvent where
  event_type : String
  event_id : Nat
  file_path : String
  line_number : Nat
  function_name : String
  class_name : Option String
  module_name : String
  line_content : String
  call_stack_depth : Nat
  parent_event_id : Option Nat
  scope_id : String
  timestamp : Nat
  deriving Repr, DecidableEq

/-- Lookup in an association list, first occurrence wins — `Map.get`. -/
def mapGet {κ α : Type} [BEq κ] : List (κ × α) → κ → Option α
  | [], _ => none
  | (k', v) :: rest, k => if k' == k then some v else mapGet rest k

/-- In-place update of the first occurrence, else append — `Map.set`. -/
def mapSet {κ α : Type} [BEq κ] : List (κ × α) → κ → α → List (κ × α)
  | [], k, v => [(k, v)]
  | (k', v') :: rest, k, v =>
      if k' == k then (k, v) :: rest else (k', v') :: mapSet rest k v

/-- Increment a counter map entry — `m.set(k, (m.get(k) || 0) + 1)`. -/
def mapBump {κ : Type} [BEq κ] (m : List (κ × Nat)) (k : κ) : List (κ × Nat) :=
  mapSet m k ((mapGet m k).getD 0 + 1)

/-- Membership of an element in a list, first-occurrence style — `Set.has` /
`Map.has` on keys. -/
def keyMem {κ α : Type} [BEq κ] (m : List (κ × α)) (k : κ) : Bool :=
  (mapGet m k).isSome

/-- Insert into a JS `Set` (no duplicates, insertion order kept). -/
def setAdd {α : Type} [BEq α] (s : List α) (x : α) : List α :=
  if s.contains x then s else s ++ [x]

theorem mapGet_mapSet {κ α : Type} [BEq κ] [LawfulBEq κ]
    (m : List (κ × α)) (j k : κ) (v : α) :
    mapGet (mapSet m j v) k = if j == k then some v else mapGet m k := by
  induction m with
  | nil => simp [mapSet, mapGet]
  | cons hd tl ih =>
      obtain ⟨k', v'⟩ := hd
      by_cases hkj : k' = j
      · subst hkj
        by_cases hkk : k' = k
        · subst hkk
          simp [mapSet, mapGet]
        · simp [mapSet, mapGet, hkk, beq_iff_eq]
      · have hb : (k' == j) = false := by
          simp [beq_iff_eq]
          exact hkj
        by_cases hkk : k' = k
        · subst hkk
          have hjk : (j == k') = false := by
            simp [beq_iff_eq]
            exact fun h => hkj h.symm
          simp [mapSet, mapGet, hb, hjk]
        · simp [mapSet, mapGet, hb, hkk, ih, beq_iff_eq]

theorem mapGet_mapBump {κ : Type} [BEq κ] [LawfulBEq κ]
    (m : List (κ × Nat)) (j k : κ) :
    (mapGet (mapBump m j) k).getD 0 =
      (if j == k then 1 else 0) + (mapGet m k).getD 0 := by
  unfold mapBump
  rw [mapGet_mapSet]
  by_cases h : j = k
  · subst h
    simp [Nat.add_comm]
  · have hb : (j == k) = false := by
      simp [beq_iff_eq]
      exact h
    simp [hb]

/-- Keys of an association list. -/
def mapKeys {κ α : Type} (m : List (κ × α)) : List κ :=
  m.map Prod.fst

theorem mapGet_isSome_iff_mem_keys {κ α : Type} [BEq κ] [LawfulBEq κ]
    (m : List (κ × α)) (k : κ) :
    (mapGet m k).isSome = true ↔ k ∈ mapKeys m := by
  induction m with
  | nil => simp [mapGet, mapKeys]
  | cons hd tl ih =>
      obtain ⟨k', v'⟩ := hd
      by_cases h : k' = k
      · subst h
        simp [mapGet, mapKeys]
      · have hb : (k' == k) = false := by
          simp [beq_iff_eq]
          exact h
        simp [mapGet, mapKeys, hb, ih]
        intro hk
        exact absurd hk.symm h

/-- Insertion sort key step, ascending — models the numeric comparator of
`Array.from(depthMap.keys()).sort((a, b) => a - b)`. -/
def insertAsc (x : Nat) : List Nat → List Nat
  | [] => [x]
  | y :: ys => if x ≤ y then x :: y :: ys else y :: insertAsc x ys

/-- Ascending sort of a list of numbers (JS `Array.prototype.sort` with a
numeric comparator). -/
def sortAsc : List Nat → List Nat
  | [] => []
  | x :: xs => insertAsc x (sortAsc xs)

theorem length_insertAsc (x : Nat) (l : List Nat) :
    (insertAsc x l).length = l.length + 1 := by
  induction l with
  | nil => rfl
  | cons y ys ih =>
      unfold insertAsc
      by_cases h : x ≤ y
      · simp [h]
      · simp [h, ih]

theorem length_sortAsc (l : List Nat) : (sortAsc l).length = l.length := by
  induction l with
  | nil => rfl
  | cons x xs ih => simp [sortAsc, length_insertAsc, ih]

theorem mem_insertAsc {a x : Nat} {l : List Nat} :
    a ∈ insertAsc x l ↔ a = x ∨ a ∈ l := by
  induction l with
  | nil => simp [insertAsc]
  | cons y ys ih =>
      unfold insertAsc
      by_cases h : x ≤ y
      · simp [h]
      · simp [h, ih]
        tauto

theorem mem_sortAsc {a : Nat} {l : List Nat} : a ∈ sortAsc l ↔ a ∈ l := by
  induction l with
  | nil => simp [sortAsc]
  | cons x xs ih => simp [sortAsc, mem_insertAsc, ih]

/-- Character-level lowercase of a string — JS `String.prototype.toLowerCase`
restricted to the ASCII range the repository's identifiers use. -/
def lowerStr (s : String) : String :=
  String.mk (s.data.map Char.toLower)

/-- JS `String.prototype.includes`: substring containment. -/
def strIncludes (s sub : String) : Bool :=
  go s.data sub.data
where
  go : List Char → List Char → Bool
    | hay, needle =>
      needle.isPrefixOf hay ||
        match hay with
        | [] => false
        | _ :: rest => go rest needle

/-- The call-category test used by `InspectorEnhanced.callStack` and
`FunctionCallTree.callTree`:
`event.event_type === 'function_call' || event.event_type === 'method_call'`. -/
def isCallEvent (e : TraceEvent) : Bool :=
  e.event_type == "function_call" || e.event_type == "method_call"

/-- One iteration of the backward scan of `InspectorEnhanced.callStack`
(FileBlock.tsx 117-124): at index `i`, if the event is call-category, its
depth is not yet in the map, and its depth is at most the current event's
depth, record it under its depth. -/
def scanStep (events : List TraceEvent) (currentDepth : Nat) (i : Nat)
    (m : List (Nat × TraceEvent)) : List (Nat × TraceEvent) :=
  match events[i]? with
  | some e =>
      if isCallEvent e && !keyMem m e.call_stack_depth &&
          e.call_stack_depth ≤ currentDepth then
        mapSet m e.call_stack_depth e
      else m
  | none => m

/-- The map from stack depth to the latest call-category event at that depth.
Translates the backward `for (let i = currentEventIndex; i >= 0; i--)` loop of
`InspectorEnhanced.callStack` (FileBlock.tsx 116-127): run `scanStep` from the
cursor down to index 0, stopping early once `currentDepth + 1` depths are
present (`if (depthMap.size === currentDepth + 1) break`). -/
def stackScan (events : List TraceEvent) (currentDepth : Nat) :
    Nat → List (Nat × TraceEvent) → List (Nat × TraceEvent)
  | i, m =>
    let m' := scanStep events currentDepth i m
    if m'.length = currentDepth + 1 then m'
    else
      match i with
      | 0 => m'
      | Nat.succ j => stackScan events currentDepth j m'

/-- The derived call stack at a cursor (`InspectorEnhanced.callStack`,
FileBlock.tsx 107-143): empty when no current event; otherwise the depth map
produced by `stackScan`, read back in ascending depth order. -/
def callStack (events : List TraceEvent) (cursor : Int) :
    List (Nat × TraceEvent) :=
  if cursor < 0 then []
  else
    match events[cursor.toNat]? with
    | none => []
    | some currentEvent =>
        let m := stackScan events currentEvent.call_stack_depth cursor.toNat []
        (sortAsc (mapKeys m)).filterMap
          (fun d => (mapGet m d).map (fun e => (d, e)))

/-- Function names on the derived stack, shallowest first. -/
def callStackNames (events : List TraceEvent) (cursor : Int) : List String :=
  (callStack events cursor).map (fun f => f.2.function_name)

/-- Convenience constructor for concrete scenario events. -/
def mkEvent (ty : String) (id : Nat) (fn : String) (depth : Nat)
    (parent : Option Nat) : TraceEvent :=
  { event_type := ty, event_id := id, file_path := "main.py",
    line_number := id + 1, function_name := fn, class_name := none,
    module_name := "main", line_content := fn, call_stack_depth := depth,
    parent_event_id := parent, scope_id := fn, timestamp := id }

/-- The spec's scenario log: call f at depth 0, call g at depth 1 with
parent f, return g at depth 1, return f at depth 0. -/
def scenarioLog : List TraceEvent :=
  [ mkEvent "function_call" 0 "f" 0 none,
    mkEvent "function_call" 1 "g" 1 (some 0),
    mkEvent "function_return" 2 "g" 1 (some 1),
    mkEvent "function_return" 3 "f" 0 (some 0) ]

/-- C1, counterexample.  On the spec's scenario log the derived call stack
after processing event index 2 (the return of g) is still [f, g], not [f]:
the backward-scan derivation keeps the frame of the returning function,
so "each return pops its matching call" fails at this concrete input. -/
theorem c1_counterexample :
    callStackNames scenarioLog 2 = ["f", "g"] ∧
      callStackNames scenarioLog 2 ≠ ["f"] := by
  constructor
  · decide
  · decide

/-- C1, amended.  For the log [call f at depth 0, call g at depth 1 with
parent f, return g at depth 1, return f at depth 0], the derived call stack
after processing event index 1 is [f, g]; after index 2 it is still [f, g]
(the return of g leaves g's frame visible, because the derivation scans
backward for the latest call at each depth up to the current event's depth);
and after index 3 it is [f], not empty. -/
theorem c1_amended :
    callStackNames scenarioLog 1 = ["f", "g"] ∧
      callStackNames scenarioLog 2 = ["f", "g"] ∧
      callStackNames scenarioLog 3 = ["f"] := by
  refine ⟨by decide, by decide, by decide⟩

theorem mapSet_of_keyMem_false {κ α : Type} [BEq κ]
    {m : List (κ × α)} {k : κ} (h : keyMem m k = false) (v : α) :
    mapSet m k v = m ++ [(k, v)] := by
  induction m with
  | nil => rfl
  | cons hd tl ih =>
      obtain ⟨k', v'⟩ := hd
      unfold keyMem mapGet at h
      by_cases hb : (k' == k) = true
      · simp [hb] at h
      · have hb' : (k' == k) = false := by
          simpa using hb
        simp [hb'] at h
        have h2 : keyMem tl k = false := by
          unfold keyMem
          simp [h]
        simp [mapSet, hb', ih h2]

theorem length_mapKeys {κ α : Type} (m : List (κ × α)) :
    (mapKeys m).length = m.length := by
  simp [mapKeys]

theorem keyMem_false_iff_not_mem {κ α : Type} [BEq κ] [LawfulBEq κ]
    (m : List (κ × α)) (k : κ) :
    keyMem m k = false ↔ k ∉ mapKeys m := by
  unfold keyMem
  rw [← mapGet_isSome_iff_mem_keys m k]
  constructor
  · intro h hmem
    rw [h] at hmem
    exact Bool.false_ne_true hmem
  · intro h
    cases hval : (mapGet m k).isSome
    · rfl
    · exact absurd hval h

theorem mapKeys_scanStep_sub (events : List TraceEvent) (D i : Nat)
    (m : List (Nat × TraceEvent)) :
    ∀ k ∈ mapKeys m, k ∈ mapKeys (scanStep events D i m) := by
  intro k hk
  unfold scanStep
  cases he : events[i]? with
  | none => exact hk
  | some e =>
      by_cases hcond : (isCallEvent e && !keyMem m e.call_stack_depth &&
          e.call_stack_depth ≤ D) = true
      · simp only [hcond, if_true]
        have hfalse : keyMem m e.call_stack_depth = false := by
          rcases Bool.and_eq_true_iff.mp hcond with ⟨h1, _⟩
          rcases Bool.and_eq_true_iff.mp h1 with ⟨_, h3⟩
          simpa using h3
        rw [mapSet_of_keyMem_false hfalse]
        simp [mapKeys] at hk ⊢
        tauto
      · simp only [hcond, if_false]
        exact hk

theorem mapKeys_scanStep_nodup_bounded (events : List TraceEvent) (D i : Nat)
    (m : List (Nat × TraceEvent))
    (hn : (mapKeys m).Nodup) (hb : ∀ k ∈ mapKeys m, k ≤ D) :
    (mapKeys (scanStep events D i m)).Nodup ∧
      ∀ k ∈ mapKeys (scanStep events D i m), k ≤ D := by
  unfold scanStep
  cases he : events[i]? with
  | none => exact ⟨hn, hb⟩
  | some e =>
      by_cases hcond : (isCallEvent e && !keyMem m e.call_stack_depth &&
          e.call_stack_depth ≤ D) = true
      · simp only [hcond, if_true]
        rcases Bool.and_eq_true_iff.mp hcond with ⟨h1, h2⟩
        rcases Bool.and_eq_true_iff.mp h1 with ⟨_, h3⟩
        have hfalse : keyMem m e.call_stack_depth = false := by simpa using h3
        have hle : e.call_stack_depth ≤ D := by simpa using h2
        rw [mapSet_of_keyMem_false hfalse]
        have hnot : e.call_stack_depth ∉ mapKeys m :=
          (keyMem_false_iff_not_mem m e.call_stack_depth).mp hfalse
        have hkeys : mapKeys (m ++ [(e.call_stack_depth, e)]) =
            mapKeys m ++ [e.call_stack_depth] := by
          simp [mapKeys]
        constructor
        · rw [hkeys, List.nodup_append]
          refine ⟨hn, List.nodup_singleton _, ?_⟩
          intro x hx hx2
          simp at hx2
          subst hx2
          exact hnot hx
        · rw [hkeys]
          intro k hk
          rcases List.mem_append.mp hk with hk | hk
          · exact hb k hk
          · simp at hk
            subst hk
            exact hle
      · simp only [hcond, if_false]
        exact ⟨hn, hb⟩

theorem scanStep_mem_depth (events : List TraceEvent) (D i : Nat)
    (m : List (Nat × TraceEvent)) (e : TraceEvent)
    (he : events[i]? = some e) (hc : isCallEvent e = true)
    (hle : e.call_stack_depth ≤ D) :
    e.call_stack_depth ∈ mapKeys (scanStep events D i m) := by
  unfold scanStep
  rw [he]
  cases hmem : keyMem m e.call_stack_depth
  · have hcond : (isCallEvent e && !keyMem m e.call_stack_depth &&
        e.call_stack_depth ≤ D) = true := by
      simp [hc, hmem, hle]
    simp only [hcond, if_true]
    rw [mapSet_of_keyMem_false hmem]
    simp [mapKeys]
  · have hin : e.call_stack_depth ∈ mapKeys m := by
      have := (mapGet_isSome_iff_mem_keys m e.call_stack_depth).mp
      unfold keyMem at hmem
      exact this hmem
    by_cases hcond : (isCallEvent e && !keyMem m e.call_stack_depth &&
        e.call_stack_depth ≤ D) = true
    · simp only [hcond, if_true]
      rcases Bool.and_eq_true_iff.mp hcond with ⟨h1, _⟩
      rcases Bool.and_eq_true_iff.mp h1 with ⟨_, h3⟩
      have : keyMem m e.call_stack_depth = false := by simpa using h3
      rw [this] at hmem
      exact absurd hmem (by simp)
    · simp only [hcond, if_false]
      exact hin

theorem stackScan_zero (events : List TraceEvent) (D : Nat)
    (m : List (Nat × TraceEvent)) :
    stackScan events D 0 m = scanStep events D 0 m := by
  rw [stackScan]
  split
  · rfl
  · rfl

theorem stackScan_succ (events : List TraceEvent) (D j : Nat)
    (m : List (Nat × TraceEvent)) :
    stackScan events D (Nat.succ j) m =
      if (scanStep events D (Nat.succ j) m).length = D + 1
      then scanStep events D (Nat.succ j) m
      else stackScan events D j (scanStep events D (Nat.succ j) m) := by
  rw [stackScan]

theorem stackScan_keys_sub (events : List TraceEvent) (D : Nat) :
    ∀ i m k, k ∈ mapKeys m → k ∈ mapKeys (stackScan events D i m) := by
  intro i
  induction i with
  | zero =>
      intro m k hk
      rw [stackScan_zero]
      exact mapKeys_scanStep_sub events D 0 m k hk
  | succ j ih =>
      intro m k hk
      rw [stackScan_succ]
      have hk' := mapKeys_scanStep_sub events D (Nat.succ j) m k hk
      by_cases hlen : (scanStep events D (Nat.succ j) m).length = D + 1
      · rw [if_pos hlen]
        exact hk'
      · rw [if_neg hlen]
        exact ih _ k hk'

theorem stackScan_nodup_bounded (events : List TraceEvent) (D : Nat) :
    ∀ i m, (mapKeys m).Nodup → (∀ k ∈ mapKeys m, k ≤ D) →
      (mapKeys (stackScan events D i m)).Nodup ∧
        ∀ k ∈ mapKeys (stackScan events D i m), k ≤ D := by
  intro i
  induction i with
  | zero =>
      intro m hn hb
      rw [stackScan_zero]
      exact mapKeys_scanStep_nodup_bounded events D 0 m hn hb
  | succ j ih =>
      intro m hn hb
      rw [stackScan_succ]
      obtain ⟨hn', hb'⟩ := mapKeys_scanStep_nodup_bounded events D (Nat.succ j) m hn hb
      by_cases hlen : (scanStep events D (Nat.succ j) m).length = D + 1
      · rw [if_pos hlen]
        exact ⟨hn', hb'⟩
      · rw [if_neg hlen]
        exact ih _ hn' hb'

theorem mem_of_nodup_bounded_full {l : List Nat} {D : Nat}
    (hn : l.Nodup) (hb : ∀ k ∈ l, k ≤ D) (hl : l.length = D + 1) :
    ∀ d, d ≤ D → d ∈ l := by
  intro d hd
  have hsub : l.toFinset ⊆ Finset.range (D + 1) := by
    intro x hx
    rw [List.mem_toFinset] at hx
    rw [Finset.mem_range]
    exact Nat.lt_succ_of_le (hb x hx)
  have hcard : l.toFinset.card = D + 1 := by
    rw [List.toFinset_card_of_nodup hn, hl]
  have heq : l.toFinset = Finset.range (D + 1) :=
    Finset.eq_of_subset_of_card_le hsub (by rw [hcard, Finset.card_range])
  have hmem : d ∈ l.toFinset := by
    rw [heq, Finset.mem_range]
    exact Nat.lt_succ_of_le hd
  exact List.mem_toFinset.mp hmem

theorem stackScan_coverage (events : List TraceEvent) (D : Nat) :
    ∀ i m, (mapKeys m).Nodup → (∀ k ∈ mapKeys m, k ≤ D) →
      ∀ j e, j ≤ i → events[j]? = some e → isCallEvent e = true →
        e.call_stack_depth ≤ D →
        e.call_stack_depth ∈ mapKeys (stackScan events D i m) := by
  intro i
  induction i with
  | zero =>
      intro m _ _ j e hj he hc hle
      have hj0 : j = 0 := Nat.le_zero.mp hj
      subst hj0
      rw [stackScan_zero]
      exact scanStep_mem_depth events D 0 m e he hc hle
  | succ j' ih =>
      intro m hn hb j e hj he hc hle
      rw [stackScan_succ]
      obtain ⟨hn', hb'⟩ :=
        mapKeys_scanStep_nodup_bounded events D (Nat.succ j') m hn hb
      by_cases hlen : (scanStep events D (Nat.succ j') m).length = D + 1
      · rw [if_pos hlen]
        have hlenkeys :
            (mapKeys (scanStep events D (Nat.succ j') m)).length = D + 1 := by
          rw [length_mapKeys]
          exact hlen
        exact mem_of_nodup_bounded_full hn' hb' hlenkeys _ hle
      · rw [if_neg hlen]
        rcases Nat.lt_or_ge j (Nat.succ j') with hj2 | hj2
        · exact ih _ hn' hb' j e (Nat.lt_succ_iff.mp hj2) he hc hle
        · have hjeq : j = Nat.succ j' := le_antisymm hj hj2
          subst hjeq
          have hmem := scanStep_mem_depth events D (Nat.succ j') m e he hc hle
          exact stackScan_keys_sub events D j' _ _ hmem

theorem length_filterMap_of_isSome {α β : Type} (l : List α) (f : α → Option β)
    (h : ∀ x ∈ l, (f x).isSome = true) : (l.filterMap f).length = l.length := by
  rw [List.length_filterMap_eq_countP]
  exact List.countP_eq_length.mpr h

/-- A log whose only event is a call at depth 1: no depth-0 call exists. -/
def c4Log : List TraceEvent := [mkEvent "function_call" 0 "solo" 1 none]

/-- C4, counterexample.  On the one-event log [call solo at depth 1], event 0
is a call-category event at stack depth 1, yet the derived call stack after
processing it has 1 frame, not 1 + 1 = 2: the backward scan only yields one
frame per depth that actually carries a call event in the prefix. -/
theorem c4_counterexample :
    c4Log[0]? = some (mkEvent "function_call" 0 "solo" 1 none) ∧
      isCallEvent (mkEvent "function_call" 0 "solo" 1 none) = true ∧
      (callStack c4Log 0).length = 1 ∧
      (callStack c4Log 0).length ≠
        (mkEvent "function_call" 0 "solo" 1 none).call_stack_depth + 1 := by
  refine ⟨by decide, by decide, by decide, by decide⟩

/-- C4, amended.  If event `i` is a call-category event at stack depth `d`
and every depth `d' ≤ d` carries some call-category event at an index `≤ i`
(which holds for probe-generated logs, where each call's parent is an open
call one level shallower), then the derived call stack after processing event
`i` contains exactly `d + 1` frames. -/
theorem c4_amended (events : List TraceEvent) (i : Nat) (e : TraceEvent)
    (he : events[i]? = some e) (hc : isCallEvent e = true)
    (hcov : ∀ d, d ≤ e.call_stack_depth →
      ∃ j, j ≤ i ∧ ∃ e', events[j]? = some e' ∧ isCallEvent e' = true ∧
        e'.call_stack_depth = d) :
    (callStack events (i : Int)).length = e.call_stack_depth + 1 := by
  unfold callStack
  have hneg : ¬ ((i : Int) < 0) := by
    simp
  rw [if_neg hneg]
  have htn : (i : Int).toNat = i := by simp
  rw [htn, he]
  simp only
  set D := e.call_stack_depth with hD
  set m := stackScan events D i [] with hm
  obtain ⟨hn, hb⟩ := stackScan_nodup_bounded events D i []
    (by simp [mapKeys]) (by simp [mapKeys])
  have hcov' : ∀ d, d ≤ D → d ∈ mapKeys m := by
    intro d hd
    obtain ⟨j, hj, e', he', hc', hd'⟩ := hcov d hd
    have hle' : e'.call_stack_depth ≤ D := by
      rw [hd']
      exact hd
    have := stackScan_coverage events D i []
      (by simp [mapKeys]) (by simp [mapKeys]) j e' hj he' hc' hle'
    rw [hd'] at this
    exact this
  have hlen : (mapKeys m).length = D + 1 := by
    have hsub : (mapKeys m).toFinset ⊆ Finset.range (D + 1) := by
      intro x hx
      rw [List.mem_toFinset] at hx
      rw [Finset.mem_range]
      exact Nat.lt_succ_of_le (hb x hx)
    have hsup : Finset.range (D + 1) ⊆ (mapKeys m).toFinset := by
      intro x hx
      rw [Finset.mem_range] at hx
      rw [List.mem_toFinset]
      exact hcov' x (Nat.lt_succ_iff.mp hx)
    have heq : (mapKeys m).toFinset = Finset.range (D + 1) :=
      subset_antisymm hsub hsup
    rw [← List.toFinset_card_of_nodup hn, heq, Finset.card_range]
  have hall : ∀ d ∈ sortAsc (mapKeys m),
      ((mapGet m d).map (fun ev => (d, ev))).isSome = true := by
    intro d hd
    rw [mem_sortAsc] at hd
    have hsome := (mapGet_isSome_iff_mem_keys m d).mpr hd
    cases hmg : mapGet m d with
    | none =>
        rw [hmg] at hsome
        simp at hsome
    | some v => simp [hmg]
  rw [length_filterMap_of_isSome _ _ hall, length_sortAsc, hlen]

/-- C4, witness.  On the scenario log, event 1 is a call at depth 1, every
depth up to 1 has a call event at or before index 1, and the derived stack
has exactly 2 frames. -/
theorem c4_witness :
    (callStack scenarioLog (1 : Int)).length =
      (mkEvent "function_call" 1 "g" 1 (some 0)).call_stack_depth + 1 := by
  apply c4_amended scenarioLog 1 (mkEvent "function_call" 1 "g" 1 (some 0))
  · decide
  · decide
  · intro d hd
    rcases Nat.le_one_iff_eq_zero_or_eq_one.mp hd with rfl | rfl
    · exact ⟨0, by decide, mkEvent "function_call" 0 "f" 0 none,
        by decide, by decide, by decide⟩
    · exact ⟨1, by decide, mkEvent "function_call" 1 "g" 1 (some 0),
        by decide, by decide, by decide⟩

/-- The filter set of `useTreeFilters` (useTreeFilters.ts 4-10). -/
structure TreeFilters where
  searchQuery : String
  showOnlyHotPath : Bool
  hideStdlib : Bool
  eventTypes : List String
  selectedFiles : List String
  deriving Repr, DecidableEq

/-- `DEFAULT_EVENT_TYPES` (useTreeFilters.ts 12-17). -/
def defaultEventTypes : List String :=
  ["function_call", "method_call", "function_return", "method_return"]

/-- The standard-library path test of the stdlib filter
(useTreeFilters.ts 99-105). -/
def isStdlibPath (filePath : String) : Bool :=
  strIncludes filePath "/lib/python" ||
    strIncludes filePath "/site-packages/" ||
    strIncludes filePath "\\lib\\python" ||
    strIncludes filePath "\\site-packages\\"

/-- The search criterion's rejection test (useTreeFilters.ts 77-90): when a
query is set and neither the lowercased function name, class name, nor file
path contains the lowercased query, the event is rejected. -/
def searchRejects (F : TreeFilters) (e : TraceEvent) : Bool :=
  F.searchQuery != "" &&
    !(strIncludes (lowerStr e.function_name) (lowerStr F.searchQuery) ||
      strIncludes (lowerStr (e.class_name.getD "")) (lowerStr F.searchQuery) ||
      strIncludes (lowerStr e.file_path) (lowerStr F.searchQuery))

/-- The event-type criterion's rejection test (useTreeFilters.ts 93-95). -/
def typeRejects (F : TreeFilters) (e : TraceEvent) : Bool :=
  !(F.eventTypes.contains e.event_type)

/-- The stdlib criterion's rejection test (useTreeFilters.ts 98-108). -/
def stdlibRejects (F : TreeFilters) (e : TraceEvent) : Bool :=
  F.hideStdlib && isStdlibPath e.file_path

/-- The hot-path criterion's rejection test (useTreeFilters.ts 111-113):
reject iff the filter is on and the execution count is strictly below the
fixed threshold 5. -/
def hotPathRejects (F : TreeFilters) (executionCount : Nat) : Bool :=
  F.showOnlyHotPath && decide (executionCount < 5)

/-- The file allow-set criterion's rejection test (useTreeFilters.ts
116-120): an empty selection is unrestricted. -/
def fileRejects (F : TreeFilters) (e : TraceEvent) : Bool :=
  decide (0 < F.selectedFiles.length) && !(F.selectedFiles.contains e.file_path)

/-- `shouldShowEvent` (useTreeFilters.ts 74-125): the five criteria reject in
sequence; an event is visible iff none rejects it. -/
def shouldShowEvent (F : TreeFilters) (e : TraceEvent)
    (executionCount : Nat) : Bool :=
  if searchRejects F e then false
  else if typeRejects F e then false
  else if stdlibRejects F e then false
  else if hotPathRejects F executionCount then false
  else if fileRejects F e then false
  else true

theorem shouldShowEvent_eq_true_iff (F : TreeFilters) (e : TraceEvent)
    (c : Nat) :
    shouldShowEvent F e c = true ↔
      searchRejects F e = false ∧ typeRejects F e = false ∧
        stdlibRejects F e = false ∧ hotPathRejects F c = false ∧
        fileRejects F e = false := by
  unfold shouldShowEvent
  cases h1 : searchRejects F e <;>
    cases h2 : typeRejects F e <;>
      cases h3 : stdlibRejects F e <;>
        cases h4 : hotPathRejects F c <;>
          cases h5 : fileRejects F e <;> simp

/-- Enabling exactly one additional filter criterion on top of the filter set
`F`: setting a search query where none was set, switching the hot-path or
stdlib toggle on, shrinking the category allow-set, or restricting a
previously unrestricted file allow-set.  All other fields are unchanged. -/
def enablesOneFilter (F G : TreeFilters) : Prop :=
  (F.searchQuery = "" ∧ ∃ q, G = { F with searchQuery := q }) ∨
    (F.showOnlyHotPath = false ∧ G = { F with showOnlyHotPath := true }) ∨
    (F.hideStdlib = false ∧ G = { F with hideStdlib := true }) ∨
    ((∀ t ∈ G.eventTypes, t ∈ F.eventTypes) ∧
      G = { F with eventTypes := G.eventTypes }) ∨
    (F.selectedFiles = [] ∧ ∃ fs, G = { F with selectedFiles := fs })

theorem contains_eq_true_of_mem {l : List String} {a : String}
    (h : a ∈ l) : l.contains a = true := by
  induction l with
  | nil => cases h
  | cons x xs ih =>
      rcases List.mem_cons.mp h with h | h
      · subst h
        simp [List.contains_cons]
      · simp [List.contains_cons]
        exact Or.inr h

theorem mem_of_contains_eq_true {l : List String} {a : String}
    (h : l.contains a = true) : a ∈ l := by
  induction l with
  | nil => simp [List.contains] at h
  | cons x xs ih =>
      rw [List.contains_cons] at h
      rcases Bool.or_eq_true_iff.mp h with h | h
      · rw [beq_iff_eq] at h
        subst h
        exact List.mem_cons_self _ _
      · exact List.mem_cons_of_mem _ (ih h)

theorem shouldShowEvent_mono_of_enablesOne (F G : TreeFilters)
    (h : enablesOneFilter F G) (e : TraceEvent) (c : Nat)
    (hshow : shouldShowEvent G e c = true) :
    shouldShowEvent F e c = true := by
  rw [shouldShowEvent_eq_true_iff] at hshow ⊢
  obtain ⟨h1, h2, h3, h4, h5⟩ := hshow
  rcases h with ⟨hq, q, rfl⟩ | ⟨hh, rfl⟩ | ⟨hs, rfl⟩ | ⟨hsub, hG⟩ | ⟨hf, fs, rfl⟩
  · refine ⟨?_, h2, h3, h4, h5⟩
    unfold searchRejects at h1 ⊢
    simp only at h1 ⊢
    rw [hq]
    simp
  · refine ⟨h1, h2, h3, ?_, h5⟩
    unfold hotPathRejects at h4 ⊢
    simp only at h4 ⊢
    rw [hh]
    simp
  · refine ⟨h1, h2, ?_, h4, h5⟩
    unfold stdlibRejects at h3 ⊢
    simp only at h3 ⊢
    rw [hs]
    simp
  · have hfields : G.searchQuery = F.searchQuery ∧
        G.showOnlyHotPath = F.showOnlyHotPath ∧
        G.hideStdlib = F.hideStdlib ∧ G.selectedFiles = F.selectedFiles := by
      rw [hG]
      exact ⟨rfl, rfl, rfl, rfl⟩
    obtain ⟨hg1, hg2, hg3, hg4⟩ := hfields
    refine ⟨?_, ?_, ?_, ?_, ?_⟩
    · unfold searchRejects at h1 ⊢
      rw [← hg1]
      exact h1
    · unfold typeRejects at h2 ⊢
      rw [Bool.not_eq_false'] at h2 ⊢
      exact contains_eq_true_of_mem
        (hsub e.event_type (mem_of_contains_eq_true h2))
    · unfold stdlibRejects at h3 ⊢
      rw [← hg3]
      exact h3
    · unfold hotPathRejects at h4 ⊢
      rw [← hg2]
      exact h4
    · unfold fileRejects at h5 ⊢
      rw [← hg4]
      exact h5
  · refine ⟨h1, h2, h3, h4, ?_⟩
    unfold fileRejects
    rw [hf]
    simp

/-- C7.  For every log and filter set, enabling one additional filter
criterion never increases the number of events for which the visibility
predicate holds: each criterion only removes events and the criteria are
conjoined. -/
theorem c7_filter_monotone_removal (events : List TraceEvent)
    (cnt : TraceEvent → Nat) (F G : TreeFilters)
    (h : enablesOneFilter F G) :
    (events.filter (fun e => shouldShowEvent G e (cnt e))).length ≤
      (events.filter (fun e => shouldShowEvent F e (cnt e))).length := by
  rw [← List.countP_eq_length_filter, ← List.countP_eq_length_filter]
  exact List.countP_mono_left
    (fun e _ hshow => shouldShowEvent_mono_of_enablesOne F G h e (cnt e) hshow)

/-- All-off filter set: no search, no hot-path, no stdlib exclusion, default
category allow-set, unrestricted files. -/
def baseFilters : TreeFilters :=
  { searchQuery := "", showOnlyHotPath := false, hideStdlib := false,
    eventTypes := defaultEventTypes, selectedFiles := [] }

/-- C7, witness: enabling the hot-path criterion on the all-off filter set
does not grow the visible subset of a concrete one-event log. -/
theorem c7_witness :
    (([mkEvent "function_call" 0 "f" 0 none]).filter
        (fun e => shouldShowEvent { baseFilters with showOnlyHotPath := true }
          e 0)).length ≤
      (([mkEvent "function_call" 0 "f" 0 none]).filter
        (fun e => shouldShowEvent baseFilters e 0)).length :=
  c7_filter_monotone_removal [mkEvent "function_call" 0 "f" 0 none]
    (fun _ => 0) baseFilters { baseFilters with showOnlyHotPath := true }
    (Or.inr (Or.inl ⟨rfl, rfl⟩))

/-- The grouping key of the execution counter
(FunctionCallTree.tsx: template literal of file path and function name). -/
def functionKey (e : TraceEvent) : String :=
  e.file_path ++ ":" ++ e.function_name

/-- `functionCounts` (FunctionCallTree callTree, lines 66-73): per-function
tally over the WHOLE event list — note: not truncated at the cursor. -/
def functionCounts (events : List TraceEvent) : List (String × Nat) :=
  events.foldl
    (fun counts ev =>
      if isCallEvent ev then mapBump counts (functionKey ev) else counts)
    []

/-- `functionCounts.get(key) || 1` (FunctionCallTree callTree, line 79). -/
def executionCountOf (events : List TraceEvent) (e : TraceEvent) : Nat :=
  (mapGet (functionCounts events) (functionKey e)).getD 1

/-- First pass of `FunctionCallTree.callTree` (lines 75-97): the map from
event id to node for every call-category event that passes the filters.  The
node's presentation fields (eventIndex, isExpanded, id) do not influence the
tree shape and are not modelled; the node carries its event. -/
def nodeMap (events : List TraceEvent) (F : TreeFilters) :
    List (Nat × TraceEvent) :=
  events.foldl
    (fun nm ev =>
      if isCallEvent ev then
        if shouldShowEvent F ev (executionCountOf events ev) then
          mapSet nm ev.event_id ev
        else nm
      else nm)
    []

/-- The hot-path-only filter set: default filters with `showOnlyHotPath` on. -/
def hotOnlyFilters : TreeFilters := { baseFilters with showOnlyHotPath := true }

/-- A log in which function f is called exactly 5 times. -/
def c3Log : List TraceEvent :=
  [ mkEvent "function_call" 0 "f" 0 none,
    mkEvent "function_call" 1 "f" 0 none,
    mkEvent "function_call" 2 "f" 0 none,
    mkEvent "function_call" 3 "f" 0 none,
    mkEvent "function_call" 4 "f" 0 none ]

/-- C3, counterexample.  With the hot-path filter on, event 0 of a log where
f is called 5 times is visible (it enters the call-tree node map), although
the count of calls of f among events with index at most cursor 1 is 2 < 5:
the code tallies over the whole log, so visibility does not match the
claim's count as of the current cursor and does not change as the cursor
advances (the tree construction takes no cursor at all). -/
theorem c3_counterexample :
    shouldShowEvent hotOnlyFilters (mkEvent "function_call" 0 "f" 0 none)
        (executionCountOf c3Log (mkEvent "function_call" 0 "f" 0 none)) =
      true ∧
      keyMem (nodeMap c3Log hotOnlyFilters) 0 = true ∧
      executionCountOf (c3Log.take (1 + 1))
        (mkEvent "function_call" 0 "f" 0 none) < 5 := by
  refine ⟨by decide, by decide, by decide⟩

/-- C3, amended.  Under the hot-path filter with the default threshold 5, a
call-category event is visible exactly when its function's execution count
over the ENTIRE event list is at least 5 (inclusive boundary), independent
of the cursor: visibility does not change as the cursor advances. -/
theorem c3_amended (events : List TraceEvent) (e : TraceEvent)
    (hc : isCallEvent e = true) :
    shouldShowEvent hotOnlyFilters e (executionCountOf events e) = true ↔
      5 ≤ executionCountOf events e := by
  have htype : defaultEventTypes.contains e.event_type = true := by
    unfold isCallEvent at hc
    rcases Bool.or_eq_true_iff.mp hc with h | h
    · rw [beq_iff_eq] at h
      rw [h]
      decide
    · rw [beq_iff_eq] at h
      rw [h]
      decide
  have h1 : searchRejects hotOnlyFilters e = false := by
    simp [searchRejects, hotOnlyFilters, baseFilters]
  have h2 : typeRejects hotOnlyFilters e = false := by
    unfold typeRejects
    have : hotOnlyFilters.eventTypes = defaultEventTypes := rfl
    rw [this, htype]
    rfl
  have h3 : stdlibRejects hotOnlyFilters e = false := by
    simp [stdlibRejects, hotOnlyFilters, baseFilters]
  have h5 : fileRejects hotOnlyFilters e = false := by
    simp [fileRejects, hotOnlyFilters, baseFilters]
  have h4iff :
      hotPathRejects hotOnlyFilters (executionCountOf events e) = false ↔
        5 ≤ executionCountOf events e := by
    simp [hotPathRejects, hotOnlyFilters, baseFilters, Nat.not_lt]
  rw [shouldShowEvent_eq_true_iff]
  constructor
  · rintro ⟨-, -, -, h4, -⟩
    exact h4iff.mp h4
  · intro hge
    exact ⟨h1, h2, h3, h4iff.mpr hge, h5⟩

/-- C3, witness.  The inclusive boundary of the amended claim: event 0 of
the 5-call log is visible because its whole-log count is exactly 5. -/
theorem c3_witness :
    shouldShowEvent hotOnlyFilters (mkEvent "function_call" 0 "f" 0 none)
      (executionCountOf c3Log (mkEvent "function_call" 0 "f" 0 none)) =
      true :=
  (c3_amended c3Log (mkEvent "function_call" 0 "f" 0 none) (by decide)).mpr
    (by decide)

theorem mapKeys_mapSet {κ α : Type} [BEq κ] [LawfulBEq κ]
    (m : List (κ × α)) (k : κ) (v : α) :
    mapKeys (mapSet m k v) =
      if keyMem m k then mapKeys m else mapKeys m ++ [k] := by
  induction m with
  | nil => simp [mapSet, keyMem, mapGet, mapKeys]
  | cons hd tl ih =>
      obtain ⟨k', v'⟩ := hd
      by_cases hkk : k' = k
      · subst hkk
        simp [mapSet, keyMem, mapGet, mapKeys]
      · have hb : (k' == k) = false := by
          simp [beq_iff_eq]
          exact hkk
        have hkm : keyMem ((k', v') :: tl) k = keyMem tl k := by
          simp [keyMem, mapGet, hb]
        rw [hkm]
        cases hmem : keyMem tl k
        · simp only [mapSet, hb, Bool.false_eq_true, if_false]
          rw [hmem] at ih
          simp only [Bool.false_eq_true, if_false] at ih
          simp [mapKeys] at ih ⊢
          exact ih
        · simp only [mapSet, hb, Bool.false_eq_true, if_false]
          rw [hmem] at ih
          simp only [if_true] at ih
          simp [mapKeys] at ih ⊢
          exact ih

theorem nodup_mapKeys_mapSet {κ α : Type} [BEq κ] [LawfulBEq κ]
    {m : List (κ × α)} (k : κ) (v : α) (hn : (mapKeys m).Nodup) :
    (mapKeys (mapSet m k v)).Nodup := by
  rw [mapKeys_mapSet]
  cases hmem : keyMem m k
  · simp only [Bool.false_eq_true, if_false]
    rw [List.nodup_append]
    refine ⟨hn, List.nodup_singleton _, ?_⟩
    intro x hx hx2
    simp at hx2
    subst hx2
    exact (keyMem_false_iff_not_mem m x).mp hmem hx
  · simp only [if_true]
    exact hn

theorem nodeMap_keys_nodup (events : List TraceEvent) (F : TreeFilters) :
    (mapKeys (nodeMap events F)).Nodup := by
  unfold nodeMap
  have haux : ∀ (l : List TraceEvent) (nm : List (Nat × TraceEvent)),
      (mapKeys nm).Nodup →
      (mapKeys (l.foldl
        (fun nm ev =>
          if isCallEvent ev then
            if shouldShowEvent F ev (executionCountOf events ev) then
              mapSet nm ev.event_id ev
            else nm
          else nm) nm)).Nodup := by
    intro l
    induction l with
    | nil => intro nm hn; exact hn
    | cons x xs ih =>
        intro nm hn
        rw [List.foldl_cons]
        apply ih
        by_cases h1 : isCallEvent x = true
        · by_cases h2 :
              shouldShowEvent F x (executionCountOf events x) = true
          · simp only [h1, h2, if_true]
            exact nodup_mapKeys_mapSet _ _ hn
          · simp only [h1, if_true, h2, Bool.false_eq_true, if_false]
            exact hn
        · simp only [h1, Bool.false_eq_true, if_false]
          exact hn
  exact haux events [] (by simp [mapKeys])

theorem mapGet_eq_some_mem {κ α : Type} [BEq κ] [LawfulBEq κ]
    {m : List (κ × α)} {k : κ} {v : α} (h : mapGet m k = some v) :
    (k, v) ∈ m := by
  induction m with
  | nil => simp [mapGet] at h
  | cons hd tl ih =>
      obtain ⟨k', v'⟩ := hd
      by_cases hkk : k' = k
      · subst hkk
        simp [mapGet] at h
        subst h
        exact List.mem_cons_self _ _
      · have hb : (k' == k) = false := by
          simp [beq_iff_eq]
          exact hkk
        rw [mapGet, hb] at h
        simp at h
        exact List.mem_cons_of_mem _ (ih h)

theorem mapGet_of_mem_nodup {κ α : Type} [BEq κ] [LawfulBEq κ]
    {m : List (κ × α)} {k : κ} {v : α} (hn : (mapKeys m).Nodup)
    (h : (k, v) ∈ m) : mapGet m k = some v := by
  induction m with
  | nil => cases h
  | cons hd tl ih =>
      obtain ⟨k', v'⟩ := hd
      rcases List.mem_cons.mp h with h | h
      · injection h with h1 h2
        subst h1
        subst h2
        simp [mapGet]
      · by_cases hkk : k' = k
        · subst hkk
          exfalso
          have hkin : k' ∈ mapKeys tl := by
            simp [mapKeys]
            exact ⟨v, h⟩
          simp [mapKeys] at hn
          exact absurd hkin (by
            rcases hn with ⟨hn1, _⟩
            simpa [mapKeys] using hn1)
        · have hb : (k' == k) = false := by
            simp [beq_iff_eq]
            exact hkk
          rw [mapGet, hb]
          simp
          have hn' : (mapKeys tl).Nodup := by
            simp [mapKeys] at hn ⊢
            exact hn.2
          exact ih hn' h

/-- Second pass of `FunctionCallTree.callTree` (lines 99-113): iterate the
node map in insertion order; a node with a declared parent that is itself a
visible node becomes that parent's child (an edge parent-id to child-id),
otherwise — parent missing, not a call event, or filtered out — the node is
pushed onto the root list. -/
def secondPass (nm : List (Nat × TraceEvent)) :
    List (Nat × TraceEvent) → List Nat × List (Nat × Nat)
  | [] => ([], [])
  | (id, node) :: rest =>
      let tail := secondPass nm rest
      match node.parent_event_id with
      | some p =>
          if keyMem nm p then (tail.1, (p, id) :: tail.2)
          else (id :: tail.1, tail.2)
      | none => (id :: tail.1, tail.2)

/-- The root ids of the derived call tree. -/
def callTreeRoots (events : List TraceEvent) (F : TreeFilters) : List Nat :=
  (secondPass (nodeMap events F) (nodeMap events F)).1

/-- The parent-to-child edges of the derived call tree. -/
def callTreeEdges (events : List TraceEvent) (F : TreeFilters) :
    List (Nat × Nat) :=
  (secondPass (nodeMap events F) (nodeMap events F)).2

/-- Modelled from the spec: the reparenting target of section 4.6 —
"when a call-category node is hidden by a filter, its children are
reattached to the NEAREST VISIBLE ANCESTOR, or promoted to root if none
exists".  Starting from a node's declared parent id, follow
`parent_event_id` links until an id that is a visible node is found; fuel
bounds the walk (parent links point backward, so `events.length` suffices). -/
def specNearestVisibleAncestor (events : List TraceEvent)
    (nm : List (Nat × TraceEvent)) : Nat → Nat → Option Nat
  | 0, _ => none
  | fuel + 1, pid =>
      if keyMem nm pid then some pid
      else
        match events.find? (fun x => x.event_id == pid) with
        | some pe =>
            match pe.parent_event_id with
            | some gp => specNearestVisibleAncestor events nm fuel gp
            | none => none
        | none => none

theorem secondPass_root_mem (nm : List (Nat × TraceEvent)) :
    ∀ (entries : List (Nat × TraceEvent)) (id : Nat) (e : TraceEvent),
      (id, e) ∈ entries →
      (e.parent_event_id = none ∨
        ∃ p, e.parent_event_id = some p ∧ keyMem nm p = false) →
      id ∈ (secondPass nm entries).1 := by
  intro entries
  induction entries with
  | nil => intro id e h; cases h
  | cons hd tl ih =>
      obtain ⟨id', e'⟩ := hd
      intro id e hmem hpar
      rcases List.mem_cons.mp hmem with h | h
      · injection h with h1 h2
        subst h1
        subst h2
        rcases hpar with hnone | ⟨p, hp, hhid⟩
        · simp [secondPass, hnone]
        · simp [secondPass, hp, hhid]
      · have htail := ih id e h hpar
        unfold secondPass
        cases hpe : e'.parent_event_id with
        | none => simp [hpe]; right; exact htail
        | some p =>
            cases hk : keyMem nm p
            · simp [hpe, hk]
              right
              exact htail
            · simp [hpe, hk]
              exact htail

theorem secondPass_no_edge (nm : List (Nat × TraceEvent)) :
    ∀ (entries : List (Nat × TraceEvent)) (id : Nat),
      (∀ e, (id, e) ∈ entries →
        e.parent_event_id = none ∨
          ∃ p, e.parent_event_id = some p ∧ keyMem nm p = false) →
      ∀ q, (q, id) ∉ (secondPass nm entries).2 := by
  intro entries
  induction entries with
  | nil => intro id _ q h; simp [secondPass] at h
  | cons hd tl ih =>
      obtain ⟨id', e'⟩ := hd
      intro id hall q hedge
      have htl : ∀ e, (id, e) ∈ tl →
          e.parent_event_id = none ∨
            ∃ p, e.parent_event_id = some p ∧ keyMem nm p = false :=
        fun e he => hall e (List.mem_cons_of_mem _ he)
      unfold secondPass at hedge
      cases hpe : e'.parent_event_id with
      | none =>
          rw [hpe] at hedge
          simp at hedge
          exact ih id htl q hedge
      | some p =>
          cases hk : keyMem nm p
          · rw [hpe] at hedge
            simp [hk] at hedge
            exact ih id htl q hedge
          · rw [hpe] at hedge
            simp [hk] at hedge
            rcases hedge with ⟨hq, hid⟩ | hedge
            · subst hid
              have := hall e' (List.mem_cons_self _ _)
              rcases this with hnone | ⟨p', hp', hhid⟩
              · rw [hpe] at hnone
                cases hnone
              · rw [hpe] at hp'
                injection hp' with hpp
                subst hpp
                rw [hk] at hhid
                cases hhid
            · exact ih id htl q hedge

/-- C2, amended.  For every log and filter set, a visible call-tree node
whose declared parent is not itself a visible node is promoted to root and
receives no incoming edge: children of a hidden call node are never
reattached to a more distant visible ancestor. -/
theorem c2_amended (events : List TraceEvent) (F : TreeFilters)
    (id p : Nat) (e : TraceEvent)
    (hvis : mapGet (nodeMap events F) id = some e)
    (hp : e.parent_event_id = some p)
    (hhid : keyMem (nodeMap events F) p = false) :
    id ∈ callTreeRoots events F ∧ ∀ q, (q, id) ∉ callTreeEdges events F := by
  have hmem : (id, e) ∈ nodeMap events F := mapGet_eq_some_mem hvis
  have hnd := nodeMap_keys_nodup events F
  constructor
  · exact secondPass_root_mem _ _ id e hmem (Or.inr ⟨p, hp, hhid⟩)
  · apply secondPass_no_edge
    intro e' hmem'
    have hsame : mapGet (nodeMap events F) id = some e' :=
      mapGet_of_mem_nodup hnd hmem'
    rw [hvis] at hsame
    injection hsame with hsame
    subst hsame
    exact Or.inr ⟨p, hp, hhid⟩

/-- A three-event chain a → b → c in which b lives in a different file. -/
def c2Events : List TraceEvent :=
  [ { mkEvent "function_call" 0 "a" 0 none with file_path := "a.py" },
    { mkEvent "function_call" 1 "b" 1 (some 0) with file_path := "b.py" },
    { mkEvent "function_call" 2 "c" 2 (some 1) with file_path := "a.py" } ]

/-- A file allow-set filter that hides b's file. -/
def c2Filters : TreeFilters := { baseFilters with selectedFiles := ["a.py"] }

/-- C2, counterexample.  Under the file filter hiding b, node c is visible
and its nearest visible ancestor is a (id 0); the claim then requires c to be
reattached as a child of a, but the built tree promotes c to root and
contains no edge from a to c. -/
theorem c2_counterexample :
    keyMem (nodeMap c2Events c2Filters) 2 = true ∧
      keyMem (nodeMap c2Events c2Filters) 1 = false ∧
      specNearestVisibleAncestor c2Events (nodeMap c2Events c2Filters)
          c2Events.length 1 = some 0 ∧
      2 ∈ callTreeRoots c2Events c2Filters ∧
      (0, 2) ∉ callTreeEdges c2Events c2Filters := by
  refine ⟨by decide, by decide, by decide, by decide, by decide⟩

/-- C2, witness.  The amended theorem applied at the concrete three-event
chain: c (id 2), whose declared parent b (id 1) is hidden, is a root and no
edge points at it. -/
theorem c2_witness :
    2 ∈ callTreeRoots c2Events c2Filters ∧
      (5, 2) ∉ callTreeEdges c2Events c2Filters :=
  ⟨(c2_amended c2Events c2Filters 2 1
      { mkEvent "function_call" 2 "c" 2 (some 1) with file_path := "a.py" }
      (by decide) (by decide) (by decide)).1,
    (c2_amended c2Events c2Filters 2 1
      { mkEvent "function_call" 2 "c" 2 (some 1) with file_path := "a.py" }
      (by decide) (by decide) (by decide)).2 5⟩

/-- `ProjectFile` (webview/src/types/index.ts 47-56); `executedLines` models
the JS `Set<number>` as an insertion-ordered duplicate-free list and
`firstSeen` the float timestamp as a Nat. -/
structure ProjectFile where
  filePath : String
  relativePath : String
  code : String
  lines : List String
  totalLines : Nat
  executedLines : List Nat
  events : List TraceEvent
  firstSeen : Nat
  deriving Repr, DecidableEq

/-- `CrossFileCall` (webview/src/types/index.ts 37-44). -/
structure CrossFileCall where
  from_file : String
  to_file : String
  from_event_id : Nat
  to_event_id : Nat
  timestamp : Nat
  deriving Repr, DecidableEq

/-- The playback store's state (useStore.ts, `create<AppState>` version,
lines 226-236).  `playbackSpeed` is a speed multiplier; its value never
feeds back into any state transition, so modelling the float as an Int is
faithful for every property below. -/
structure StoreState where
  events : List TraceEvent
  isPaused : Bool
  projectFiles : List (String × ProjectFile)
  crossFileCalls : List CrossFileCall
  currentEventIndex : Int
  isPlaying : Bool
  playbackSpeed : Int
  deriving Repr, DecidableEq

/-- The store's initial state (useStore.ts 227-236). -/
def initialStore : StoreState :=
  { events := [], isPaused := false, projectFiles := [],
    crossFileCalls := [], currentEventIndex := -1, isPlaying := false,
    playbackSpeed := 1 }

/-- `addEvent` (useStore.ts 239-259): append the event, and when its file is
registered, mark the line executed and record the event on the file. -/
def addEvent (s : StoreState) (event : TraceEvent) : StoreState :=
  let newProjectFiles :=
    match mapGet s.projectFiles event.file_path with
    | some file =>
        mapSet s.projectFiles event.file_path
          { file with
              executedLines := setAdd file.executedLines event.line_number,
              events := file.events ++ [event] }
    | none => s.projectFiles
  { s with events := s.events ++ [event], projectFiles := newProjectFiles }

/-- `clearEvents` (useStore.ts 261-262).  Note: it does not touch
`currentEventIndex`. -/
def clearEvents (s : StoreState) : StoreState :=
  { s with events := [] }

/-- `togglePause` (useStore.ts 264-265). -/
def togglePause (s : StoreState) : StoreState :=
  { s with isPaused := !s.isPaused }

/-- `addFileMetadata` (useStore.ts 268-287): register the file only when its
absolute path is not yet present. -/
def addFileMetadata (s : StoreState) (filePath relativePath code : String)
    (lines : List String) (totalLines : Nat) (timestamp : Nat) : StoreState :=
  if keyMem s.projectFiles filePath then s
  else
    { s with
        projectFiles := mapSet s.projectFiles filePath
          { filePath := filePath, relativePath := relativePath, code := code,
            lines := lines, totalLines := totalLines, executedLines := [],
            events := [], firstSeen := timestamp } }

/-- `addCrossFileCall` (useStore.ts 289-292). -/
def addCrossFileCall (s : StoreState) (call : CrossFileCall) : StoreState :=
  { s with crossFileCalls := s.crossFileCalls ++ [call] }

/-- `clearProjectData` (useStore.ts 294-301). -/
def clearProjectData (s : StoreState) : StoreState :=
  { s with
      events := []
      projectFiles := []
      crossFileCalls := []
      currentEventIndex := -1
      isPlaying := false }

/-- `setCurrentEventIndex` (useStore.ts 304-309): clamp into
[-1, events.length - 1]. -/
def setCurrentEventIndex (s : StoreState) (index : Int) : StoreState :=
  let maxIndex : Int := (s.events.length : Int) - 1
  let clampedIndex : Int := max (-1) (min index maxIndex)
  { s with currentEventIndex := clampedIndex }

/-- `togglePlayback` (useStore.ts 311-312). -/
def togglePlayback (s : StoreState) : StoreState :=
  { s with isPlaying := !s.isPlaying }

/-- `setPlaybackSpeed` (useStore.ts 314-315). -/
def setPlaybackSpeed (s : StoreState) (speed : Int) : StoreState :=
  { s with playbackSpeed := speed }

/-- `stepForward` (useStore.ts 317-321). -/
def stepForward (s : StoreState) : StoreState :=
  let newIndex : Int := min (s.currentEventIndex + 1) ((s.events.length : Int) - 1)
  { s with currentEventIndex := newIndex }

/-- `stepBackward` (useStore.ts 323-327). -/
def stepBackward (s : StoreState) : StoreState :=
  { s with currentEventIndex := max (s.currentEventIndex - 1) (-1) }

/-- `goToStart` (useStore.ts 329-330). -/
def goToStart (s : StoreState) : StoreState :=
  { s with currentEventIndex := -1, isPlaying := false }

/-- `goToEnd` (useStore.ts 332-335). -/
def goToEnd (s : StoreState) : StoreState :=
  { s with
      currentEventIndex := (s.events.length : Int) - 1
      isPlaying := false }

/-- The cursor invariant: the cursor lies in [-1, events.length - 1]. -/
def storeInv (s : StoreState) : Prop :=
  -1 ≤ s.currentEventIndex ∧
    s.currentEventIndex ≤ (s.events.length : Int) - 1

/-- C5.  `setCurrentEventIndex` clamps any integer into [-1, length - 1]
(inside the range it is the identity, below it yields -1, above it yields
length - 1), and from any in-range cursor `stepForward` / `stepBackward`
move by exactly one, degenerating to no-ops (not errors) at the upper /
lower boundary respectively. -/
theorem c5_seek_clamps_steps_move_by_one (s : StoreState) (i : Int)
    (hlo : -1 ≤ s.currentEventIndex)
    (hhi : s.currentEventIndex ≤ (s.events.length : Int) - 1) :
    (-1 ≤ (setCurrentEventIndex s i).currentEventIndex ∧
        (setCurrentEventIndex s i).currentEventIndex ≤
          (s.events.length : Int) - 1) ∧
      (-1 ≤ i → i ≤ (s.events.length : Int) - 1 →
        (setCurrentEventIndex s i).currentEventIndex = i) ∧
      (i < -1 → (setCurrentEventIndex s i).currentEventIndex = -1) ∧
      ((s.events.length : Int) - 1 < i →
        (setCurrentEventIndex s i).currentEventIndex =
          (s.events.length : Int) - 1) ∧
      (s.currentEventIndex < (s.events.length : Int) - 1 →
        (stepForward s).currentEventIndex = s.currentEventIndex + 1) ∧
      (s.currentEventIndex = (s.events.length : Int) - 1 →
        (stepForward s).currentEventIndex = s.currentEventIndex) ∧
      (-1 < s.currentEventIndex →
        (stepBackward s).currentEventIndex = s.currentEventIndex - 1) ∧
      (s.currentEventIndex = -1 →
        (stepBackward s).currentEventIndex = s.currentEventIndex) := by
  simp only [setCurrentEventIndex, stepForward, stepBackward]
  omega

/-- C5, witness: the cursor operations applied to a concrete two-event
store with the cursor at 0 and seek target 7 (clamped to 1). -/
theorem c5_witness :
    (-1 ≤ (setCurrentEventIndex
          { initialStore with
              events := scenarioLog.take 2, currentEventIndex := 0 }
          7).currentEventIndex ∧
        (setCurrentEventIndex
          { initialStore with
              events := scenarioLog.take 2, currentEventIndex := 0 }
          7).currentEventIndex ≤
          (({ initialStore with
              events := scenarioLog.take 2,
              currentEventIndex := 0 } : StoreState).events.length : Int)
            - 1) ∧
      (-1 ≤ (7 : Int) →
        (7 : Int) ≤ (({ initialStore with
            events := scenarioLog.take 2,
            currentEventIndex := 0 } : StoreState).events.length : Int) - 1 →
        (setCurrentEventIndex
          { initialStore with
              events := scenarioLog.take 2, currentEventIndex := 0 }
          7).currentEventIndex = 7) ∧
      ((7 : Int) < -1 →
        (setCurrentEventIndex
          { initialStore with
              events := scenarioLog.take 2, currentEventIndex := 0 }
          7).currentEventIndex = -1) ∧
      ((({ initialStore with
          events := scenarioLog.take 2,
          currentEventIndex := 0 } : StoreState).events.length : Int) - 1 <
            (7 : Int) →
        (setCurrentEventIndex
          { initialStore with
              events := scenarioLog.take 2, currentEventIndex := 0 }
          7).currentEventIndex =
          (({ initialStore with
              events := scenarioLog.take 2,
              currentEventIndex := 0 } : StoreState).events.length : Int)
            - 1) ∧
      (({ initialStore with
          events := scenarioLog.take 2,
          currentEventIndex := 0 } : StoreState).currentEventIndex <
          (({ initialStore with
              events := scenarioLog.take 2,
              currentEventIndex := 0 } : StoreState).events.length : Int)
            - 1 →
        (stepForward
          { initialStore with
              events := scenarioLog.take 2,
              currentEventIndex := 0 }).currentEventIndex =
          ({ initialStore with
              events := scenarioLog.take 2,
              currentEventIndex := 0 } : StoreState).currentEventIndex + 1) ∧
      (({ initialStore with
          events := scenarioLog.take 2,
          currentEventIndex := 0 } : StoreState).currentEventIndex =
          (({ initialStore with
              events := scenarioLog.take 2,
              currentEventIndex := 0 } : StoreState).events.length : Int)
            - 1 →
        (stepForward
          { initialStore with
              events := scenarioLog.take 2,
              currentEventIndex := 0 }).currentEventIndex =
          ({ initialStore with
              events := scenarioLog.take 2,
              currentEventIndex := 0 } : StoreState).currentEventIndex) ∧
      (-1 < ({ initialStore with
          events := scenarioLog.take 2,
          currentEventIndex := 0 } : StoreState).currentEventIndex →
        (stepBackward
          { initialStore with
              events := scenarioLog.take 2,
              currentEventIndex := 0 }).currentEventIndex =
          ({ initialStore with
              events := scenarioLog.take 2,
              currentEventIndex := 0 } : StoreState).currentEventIndex - 1) ∧
      (({ initialStore with
          events := scenarioLog.take 2,
          currentEventIndex := 0 } : StoreState).currentEventIndex = -1 →
        (stepBackward
          { initialStore with
              events := scenarioLog.take 2,
              currentEventIndex := 0 }).currentEventIndex =
          ({ initialStore with
              events := scenarioLog.take 2,
              currentEventIndex := 0 } : StoreState).currentEventIndex) :=
  c5_seek_clamps_steps_move_by_one
    { initialStore with events := scenarioLog.take 2, currentEventIndex := 0 }
    7 (by decide) (by decide)

theorem countP_key_zero_of_keyMem_false {κ α : Type} [BEq κ]
    {m : List (κ × α)} {k : κ} (h : keyMem m k = false) :
    m.countP (fun q => q.1 == k) = 0 := by
  induction m with
  | nil => rfl
  | cons hd tl ih =>
      obtain ⟨k', v'⟩ := hd
      unfold keyMem mapGet at h
      by_cases hb : (k' == k) = true
      · simp [hb] at h
      · have hb' : (k' == k) = false := by simpa using hb
        simp [hb'] at h
        rw [List.countP_cons]
        have h2 : keyMem tl k = false := by
          unfold keyMem
          simp [h]
        simp [hb', ih h2]

theorem one_le_countP_key_of_keyMem {κ α : Type} [BEq κ]
    {m : List (κ × α)} {k : κ} (h : keyMem m k = true) :
    1 ≤ m.countP (fun q => q.1 == k) := by
  induction m with
  | nil => simp [keyMem, mapGet] at h
  | cons hd tl ih =>
      obtain ⟨k', v'⟩ := hd
      rw [List.countP_cons]
      by_cases hb : (k' == k) = true
      · simp [hb]
      · have hb' : (k' == k) = false := by simpa using hb
        unfold keyMem mapGet at h
        simp [hb'] at h
        have h2 : keyMem tl k = true := by
          unfold keyMem
          exact h
        exact le_trans (ih h2) (Nat.le_add_right _ _)

/-- C8.  File registration is idempotent per absolute path: a second
registration of the same path (with any metadata) leaves the whole store —
registry entry included — unchanged, and the number of registry entries for
the path after a registration is exactly one. -/
theorem c8_addFileMetadata_idempotent (s : StoreState)
    (p rp cd : String) (ls : List String) (tl ts : Nat)
    (rp2 cd2 : String) (ls2 : List String) (tl2 ts2 : Nat)
    (hcount : s.projectFiles.countP (fun q => q.1 == p) ≤ 1) :
    addFileMetadata (addFileMetadata s p rp cd ls tl ts) p rp2 cd2 ls2 tl2 ts2 =
        addFileMetadata s p rp cd ls tl ts ∧
      (addFileMetadata s p rp cd ls tl ts).projectFiles.countP
          (fun q => q.1 == p) = 1 := by
  have happly : ∀ (st : StoreState) (r c : String) (l : List String)
      (t t2 : Nat), keyMem st.projectFiles p = true →
      addFileMetadata st p r c l t t2 = st := by
    intro st r c l t t2 hst
    unfold addFileMetadata
    rw [hst]
    rfl
  cases hmem : keyMem s.projectFiles p
  · have hstep : addFileMetadata s p rp cd ls tl ts =
        { s with
            projectFiles := mapSet s.projectFiles p
              { filePath := p, relativePath := rp, code := cd, lines := ls,
                totalLines := tl, executedLines := [], events := [],
                firstSeen := ts } } := by
      unfold addFileMetadata
      rw [hmem]
      rfl
    have hget : keyMem (addFileMetadata s p rp cd ls tl ts).projectFiles p =
        true := by
      rw [hstep]
      show keyMem (mapSet s.projectFiles p _) p = true
      unfold keyMem
      rw [mapGet_mapSet]
      simp
    refine ⟨happly _ rp2 cd2 ls2 tl2 ts2 hget, ?_⟩
    rw [hstep]
    show (mapSet s.projectFiles p _).countP (fun q => q.1 == p) = 1
    rw [mapSet_of_keyMem_false hmem, List.countP_append,
      countP_key_zero_of_keyMem_false hmem]
    simp
  · have hid : addFileMetadata s p rp cd ls tl ts = s :=
      happly s rp cd ls tl ts hmem
    refine ⟨?_, ?_⟩
    · rw [hid]
      exact happly s rp2 cd2 ls2 tl2 ts2 hmem
    · rw [hid]
      exact le_antisymm hcount (one_le_countP_key_of_keyMem hmem)

/-- C8, witness: registering path a twice on the empty store equals
registering it once, which leaves exactly one entry for a. -/
theorem c8_witness :
    addFileMetadata (addFileMetadata initialStore "a" "a" "" [] 0 0)
        "a" "b" "x" ["y"] 1 9 =
      addFileMetadata initialStore "a" "a" "" [] 0 0 ∧
      (addFileMetadata initialStore "a" "a" "" [] 0 0).projectFiles.countP
        (fun q => q.1 == "a") = 1 :=
  c8_addFileMetadata_idempotent initialStore "a" "a" "" [] 0 0 "b" "x" ["y"] 1 9
    (by decide)

/-- A store holding one event with the cursor on it. -/
def c10Store : StoreState :=
  { initialStore with
      events := [mkEvent "line" 0 "f" 0 none]
      currentEventIndex := 0 }

/-- C10, counterexample.  `clearEvents` empties the event list but leaves
`currentEventIndex` untouched (useStore.ts 261-262), so from the valid store
with one event and cursor 0 it produces cursor 0 over an empty log,
violating -1 ≤ cursor ≤ length - 1 = -1. -/
theorem c10_counterexample :
    storeInv c10Store ∧ ¬ storeInv (clearEvents c10Store) := by
  constructor
  · constructor
    · decide
    · decide
  · intro hinv
    have h2 := hinv.2
    revert h2
    decide

/-- C10, amended.  Every listed store operation EXCEPT `clearEvents`
preserves the cursor invariant -1 ≤ currentEventIndex ≤ events.length - 1;
`clearEvents` empties the log but leaves the cursor unchanged, so it
preserves the invariant only when the cursor is already -1
(`clearProjectData` is the clearing operation that resets the cursor). -/
theorem c10_amended (s : StoreState) (ev : TraceEvent) (i sp : Int)
    (hinv : storeInv s) :
    storeInv (addEvent s ev) ∧ storeInv (clearProjectData s) ∧
      storeInv (setCurrentEventIndex s i) ∧ storeInv (stepForward s) ∧
      storeInv (stepBackward s) ∧ storeInv (goToStart s) ∧
      storeInv (goToEnd s) ∧ storeInv (togglePlayback s) ∧
      storeInv (togglePause s) ∧ storeInv (setPlaybackSpeed s sp) ∧
      (clearEvents s).currentEventIndex = s.currentEventIndex ∧
      (clearEvents s).events = [] := by
  obtain ⟨hlo, hhi⟩ := hinv
  refine ⟨?_, ?_, ?_, ?_, ?_, ?_, ?_, ?_, ?_, ?_, rfl, rfl⟩
  · constructor
    · exact hlo
    · show s.currentEventIndex ≤ ((s.events ++ [ev]).length : Int) - 1
      rw [List.length_append]
      push_cast
      omega
  · constructor
    · exact le_refl _
    · show (-1 : Int) ≤ (([] : List TraceEvent).length : Int) - 1
      simp
  · constructor
    · simp [setCurrentEventIndex]
    · simp [setCurrentEventIndex]
  · constructor
    · simp [stepForward]
      omega
    · simp [stepForward]
  · constructor
    · simp [stepBackward]
    · simp [stepBackward]
      omega
  · exact ⟨by simp [goToStart], by simp [goToStart]⟩
  · exact ⟨by simp [goToEnd], by simp [goToEnd]⟩
  · exact ⟨hlo, hhi⟩
  · exact ⟨hlo, hhi⟩
  · exact ⟨hlo, hhi⟩

/-- C10, witness: the amended theorem at the concrete one-event store. -/
theorem c10_witness :
    storeInv (addEvent c10Store (mkEvent "line" 1 "g" 0 none)) ∧
      storeInv (clearProjectData c10Store) ∧
      storeInv (setCurrentEventIndex c10Store 5) ∧
      storeInv (stepForward c10Store) ∧ storeInv (stepBackward c10Store) ∧
      storeInv (goToStart c10Store) ∧ storeInv (goToEnd c10Store) ∧
      storeInv (togglePlayback c10Store) ∧ storeInv (togglePause c10Store) ∧
      storeInv (setPlaybackSpeed c10Store 2) ∧
      (clearEvents c10Store).currentEventIndex =
        c10Store.currentEventIndex ∧
      (clearEvents c10Store).events = [] :=
  c10_amended c10Store (mkEvent "line" 1 "g" 0 none) 5 2
    ⟨by decide, by decide⟩

/-- JS `String.prototype.trim`: strip leading and trailing whitespace. -/
def trimStr (s : String) : String :=
  String.mk
    (((s.data.dropWhile Char.isWhitespace).reverse.dropWhile
        Char.isWhitespace).reverse)

/-- The collector's mutable state (TraceServer.ts 31-32): the buffered
events and the running total.  (The status-bar and visualizer side effects
carry no state the claims mention.) -/
structure ServerState where
  eventBuffer : List TraceEvent
  totalEvents : Nat
  deriving Repr, DecidableEq

/-- `TraceServer.handleTraceEvent` (TraceServer.ts 156-183): try to parse
the message; on success bump the counter and append the event to the buffer;
on failure (`catch`) only log — the state is unchanged.  JSON parsing is
runtime library behaviour and enters as the `parse` parameter. -/
def handleTraceEvent (parse : String → Option TraceEvent)
    (st : ServerState) (message : String) : ServerState :=
  match parse message with
  | some event =>
      { eventBuffer := st.eventBuffer ++ [event],
        totalEvents := st.totalEvents + 1 }
  | none => st

/-- The per-connection frame loop (TraceServer.ts 124-137): each complete
newline-delimited message with non-empty trimmed content is handed to
`handleTraceEvent`; blank frames are dropped. -/
def processMessages (parse : String → Option TraceEvent)
    (st : ServerState) : List String → ServerState
  | [] => st
  | message :: rest =>
      processMessages parse
        (if trimStr message != "" then handleTraceEvent parse st message
         else st)
        rest

/-- The messages that actually reach a successful parse. -/
def keptEvents (parse : String → Option TraceEvent)
    (messages : List String) : List TraceEvent :=
  (messages.filter (fun m => trimStr m != "")).filterMap parse

theorem processMessages_spec (parse : String → Option TraceEvent) :
    ∀ (messages : List String) (st : ServerState),
      processMessages parse st messages =
        { eventBuffer := st.eventBuffer ++ keptEvents parse messages,
          totalEvents := st.totalEvents + (keptEvents parse messages).length } := by
  intro messages
  induction messages with
  | nil =>
      intro st
      simp [processMessages, keptEvents]
  | cons m rest ih =>
      intro st
      rw [processMessages]
      cases htrim : (trimStr m != "")
      · rw [if_neg (by simp [htrim])]
        rw [ih st]
        have hkept : keptEvents parse (m :: rest) = keptEvents parse rest := by
          unfold keptEvents
          rw [List.filter_cons]
          rw [htrim]
          simp
        rw [hkept]
      · rw [if_pos (by simp [htrim])]
        cases hparse : parse m with
        | none =>
            have hhandle : handleTraceEvent parse st m = st := by
              unfold handleTraceEvent
              rw [hparse]
            rw [hhandle, ih st]
            have hkept : keptEvents parse (m :: rest) =
                keptEvents parse rest := by
              unfold keptEvents
              rw [List.filter_cons, htrim]
              simp [hparse]
            rw [hkept]
        | some ev =>
            have hhandle : handleTraceEvent parse st m =
                { eventBuffer := st.eventBuffer ++ [ev],
                  totalEvents := st.totalEvents + 1 } := by
              unfold handleTraceEvent
              rw [hparse]
            rw [hhandle, ih]
            have hkept : keptEvents parse (m :: rest) =
                ev :: keptEvents parse rest := by
              unfold keptEvents
              rw [List.filter_cons, htrim]
              simp [hparse]
            rw [hkept]
            simp
            omega

/-- C9.  A message the collector cannot parse is skipped without mutating
the event buffer or the event count, and the stream continues: processing a
message list with the malformed message inserted yields exactly the state of
processing the list without it, so every well-formed message after the
malformed one is still parsed and appended. -/
theorem c9_malformed_skipped (parse : String → Option TraceEvent)
    (st : ServerState) (pre post : List String) (bad : String)
    (hbad : parse bad = none) :
    processMessages parse st (pre ++ bad :: post) =
        processMessages parse st (pre ++ post) ∧
      (processMessages parse st (pre ++ bad :: post)).eventBuffer =
        st.eventBuffer ++ keptEvents parse pre ++ keptEvents parse post := by
  have hbadkept : keptEvents parse [bad] = [] := by
    unfold keptEvents
    cases htrim : (trimStr bad != "")
    · simp [List.filter_cons, htrim]
    · simp [List.filter_cons, htrim, hbad]
  have hsplit : ∀ (l1 l2 : List String),
      keptEvents parse (l1 ++ l2) =
        keptEvents parse l1 ++ keptEvents parse l2 := by
    intro l1 l2
    unfold keptEvents
    rw [List.filter_append, List.filterMap_append]
  constructor
  · rw [processMessages_spec, processMessages_spec]
    have h1 : keptEvents parse (pre ++ bad :: post) =
        keptEvents parse (pre ++ post) := by
      have hb : (bad :: post) = [bad] ++ post := rfl
      rw [hb, hsplit, hsplit, hbadkept, hsplit]
      simp
    rw [h1]
  · rw [processMessages_spec]
    have hb : (bad :: post) = [bad] ++ post := rfl
    rw [hb, hsplit, hsplit, hbadkept]
    simp

/-- A concrete parse function for the witness: recognises two well-formed
message strings. -/
def demoParse (s : String) : Option TraceEvent :=
  if s == "a" then some (mkEvent "line" 0 "f" 0 none)
  else if s == "b" then some (mkEvent "line" 1 "g" 0 none)
  else none

/-- C9, witness: with a malformed message between two well-formed ones, the
resulting state equals the state without it and the buffer holds exactly the
two parsed events. -/
theorem c9_witness :
    processMessages demoParse { eventBuffer := [], totalEvents := 0 }
        (["a"] ++ "nonsense" :: ["b"]) =
        processMessages demoParse { eventBuffer := [], totalEvents := 0 }
          (["a"] ++ ["b"]) ∧
      (processMessages demoParse { eventBuffer := [], totalEvents := 0 }
          (["a"] ++ "nonsense" :: ["b"])).eventBuffer =
        ([] : List TraceEvent) ++ keptEvents demoParse ["a"] ++
          keptEvents demoParse ["b"] :=
  c9_malformed_skipped demoParse { eventBuffer := [], totalEvents := 0 }
    ["a"] ["b"] "nonsense" (by decide)

/-- `CodeContext.lineExecutionCounts` (CodeContext.tsx 107-121), generalised
over the inspected file: tally, per line number, the events of that file
among `events.slice(0, cursor + 1)`. -/
def lineExecutionCounts (events : List TraceEvent) (cursor : Nat)
    (filePath : String) : List (Nat × Nat) :=
  let visibleEvents := events.take (cursor + 1)
  visibleEvents.foldl
    (fun counts ev =>
      if ev.file_path == filePath then mapBump counts ev.line_number
      else counts)
    []

/-- The heat count read off for one line — `counts.get(line) || 0`
(CodeContext.tsx 130). -/
def lineExecutionCount (events : List TraceEvent) (cursor : Nat)
    (filePath : String) (line : Nat) : Nat :=
  (mapGet (lineExecutionCounts events cursor filePath) line).getD 0

theorem foldl_mapBump_count (filePath : String) :
    ∀ (l : List TraceEvent) (m : List (Nat × Nat)) (line : Nat),
      (mapGet (l.foldl
          (fun counts ev =>
            if ev.file_path == filePath then mapBump counts ev.line_number
            else counts) m) line).getD 0 =
        (mapGet m line).getD 0 +
          l.countP
            (fun ev => ev.file_path == filePath && ev.line_number == line) := by
  intro l
  induction l with
  | nil =>
      intro m k
      simp
  | cons x xs ih =>
      intro m k
      rw [List.foldl_cons, List.countP_cons]
      cases hr : (x.file_path == filePath)
      · rw [if_neg (by simp [hr])]
        rw [ih m k]
        simp [hr]
      · rw [if_pos (by simp [hr])]
        rw [ih (mapBump m x.line_number) k]
        rw [mapGet_mapBump]
        cases hk : (x.line_number == k)
        · simp [hr, hk]
        · simp [hr, hk]
          omega

/-- C6.  For a fixed (file, line) pair, the heatmap execution count derived
at cursor `i` is monotonically non-decreasing as the cursor advances to any
`j ≥ i` over the unchanged log. -/
theorem c6_heatmap_monotone (events : List TraceEvent) (i j : Nat)
    (filePath : String) (line : Nat) (hij : i ≤ j) :
    lineExecutionCount events i filePath line ≤
      lineExecutionCount events j filePath line := by
  unfold lineExecutionCount lineExecutionCounts
  simp only
  rw [foldl_mapBump_count filePath, foldl_mapBump_count filePath]
  simp only [mapGet, Option.getD_none, Nat.zero_add]
  apply List.Sublist.countP_le
  have htake : events.take (i + 1) = (events.take (j + 1)).take (i + 1) := by
    rw [List.take_take]
    have : min (i + 1) (j + 1) = i + 1 := by omega
    rw [this]
  rw [htake]
  exact List.take_sublist _ _

/-- C6, witness: on the scenario log the count of (main.py, line 1) at
cursor 0 is at most the count at cursor 3. -/
theorem c6_witness :
    lineExecutionCount scenarioLog 0 "main.py" 1 ≤
      lineExecutionCount scenarioLog 3 "main.py" 1 :=
  c6_heatmap_monotone scenarioLog 0 3 "main.py" 1 (by decide)
